import Mathlib

/-!
# Verification of the `fit_to_json` converter and its chained-stream decoder

This development shallowly embeds the converter binary `src/bin/fit_to_json.rs`
(output-location classification, output-path resolution, JSON shaping, and the
main read/decode/write loop) together with a model of the chained binary
segment decoder that the converter calls into.  The decoder itself lives in an
external library, so its definitions below are modelled from the specification
(header with declared body length and header checksum, definition and data
frames with a per-segment definition table, per-field value decoding with
invalid-value sentinels, and a trailing segment checksum).

Machine bytes are modelled as `Nat` together with explicit `< 256` bounds
where byte-level round trips require them.
-/

/-! ## Bytes and scalar values (Value Decoder, modelled from the spec) -/

/-- Little-endian interpretation of a list of bytes as a natural number. -/
def fromBytesLE : List Nat → Nat
  | [] => 0
  | b :: bs => b + 256 * fromBytesLE bs

/-- Little-endian encoding of a natural number into `w` bytes. -/
def toBytesLE : Nat → Nat → List Nat
  | 0, _ => []
  | w + 1, v => v % 256 :: toBytesLE w (v / 256)

/-- Interpretation of a byte window honouring the declared endianness. -/
def fromBytes (big : Bool) (bs : List Nat) : Nat :=
  if big then fromBytesLE bs.reverse else fromBytesLE bs

/-- Encoding of a natural number honouring the declared endianness. -/
def toBytes (big : Bool) (w v : Nat) : List Nat :=
  if big then (toBytesLE w v).reverse else toBytesLE w v

/-- The spec's decode-error taxonomy (the segment checksum case is soft and is
reported as a warning flag instead of an error). -/
inductive DecodeError where
  | invalidHeader
  | headerChecksumMismatch
  | truncatedStream
  | undefinedFrameType
  | fieldWidthMismatch
deriving DecidableEq, Repr

/-- Modelled from the spec: the decoder's tagged value union — a closed sum
over signed integers, unsigned integers, floating point, strings, byte
arrays, enumerated codes, fixed-length arrays of scalars, and the explicit
absent-value marker that the spec requires for sentinel patterns.  A float is
carried as its raw bit pattern (decoding only reassembles bytes, no
floating-point arithmetic happens); a string carries the raw bytes of its
window (content up to the null terminator plus padding), so that re-encoding
is byte-exact. -/
inductive Value where
  | sintVal (v : Int)
  | uintVal (v : Nat)
  | floatVal (bits : Nat)
  | strVal (bs : List Nat)
  | byteArr (bs : List Nat)
  | enumVal (v : Nat)
  | arrayVal (vs : List Value)
  | absent

mutual

/-- Decidable equality for the nested `Value` union (the deriver does not
handle the nested `List Value` occurrence). -/
def valueDecEq : (a b : Value) → Decidable (a = b)
  | Value.sintVal x, Value.sintVal y => decidable_of_iff (x = y) (by simp)
  | Value.sintVal _, Value.uintVal _ => Decidable.isFalse (by simp)
  | Value.sintVal _, Value.floatVal _ => Decidable.isFalse (by simp)
  | Value.sintVal _, Value.strVal _ => Decidable.isFalse (by simp)
  | Value.sintVal _, Value.byteArr _ => Decidable.isFalse (by simp)
  | Value.sintVal _, Value.enumVal _ => Decidable.isFalse (by simp)
  | Value.sintVal _, Value.arrayVal _ => Decidable.isFalse (by simp)
  | Value.sintVal _, Value.absent => Decidable.isFalse (by simp)
  | Value.uintVal _, Value.sintVal _ => Decidable.isFalse (by simp)
  | Value.uintVal x, Value.uintVal y => decidable_of_iff (x = y) (by simp)
  | Value.uintVal _, Value.floatVal _ => Decidable.isFalse (by simp)
  | Value.uintVal _, Value.strVal _ => Decidable.isFalse (by simp)
  | Value.uintVal _, Value.byteArr _ => Decidable.isFalse (by simp)
  | Value.uintVal _, Value.enumVal _ => Decidable.isFalse (by simp)
  | Value.uintVal _, Value.arrayVal _ => Decidable.isFalse (by simp)
  | Value.uintVal _, Value.absent => Decidable.isFalse (by simp)
  | Value.floatVal _, Value.sintVal _ => Decidable.isFalse (by simp)
  | Value.floatVal _, Value.uintVal _ => Decidable.isFalse (by simp)
  | Value.floatVal x, Value.floatVal y => decidable_of_iff (x = y) (by simp)
  | Value.floatVal _, Value.strVal _ => Decidable.isFalse (by simp)
  | Value.floatVal _, Value.byteArr _ => Decidable.isFalse (by simp)
  | Value.floatVal _, Value.enumVal _ => Decidable.isFalse (by simp)
  | Value.floatVal _, Value.arrayVal _ => Decidable.isFalse (by simp)
  | Value.floatVal _, Value.absent => Decidable.isFalse (by simp)
  | Value.strVal _, Value.sintVal _ => Decidable.isFalse (by simp)
  | Value.strVal _, Value.uintVal _ => Decidable.isFalse (by simp)
  | Value.strVal _, Value.floatVal _ => Decidable.isFalse (by simp)
  | Value.strVal x, Value.strVal y => decidable_of_iff (x = y) (by simp)
  | Value.strVal _, Value.byteArr _ => Decidable.isFalse (by simp)
  | Value.strVal _, Value.enumVal _ => Decidable.isFalse (by simp)
  | Value.strVal _, Value.arrayVal _ => Decidable.isFalse (by simp)
  | Value.strVal _, Value.absent => Decidable.isFalse (by simp)
  | Value.byteArr _, Value.sintVal _ => Decidable.isFalse (by simp)
  | Value.byteArr _, Value.uintVal _ => Decidable.isFalse (by simp)
  | Value.byteArr _, Value.floatVal _ => Decidable.isFalse (by simp)
  | Value.byteArr _, Value.strVal _ => Decidable.isFalse (by simp)
  | Value.byteArr x, Value.byteArr y => decidable_of_iff (x = y) (by simp)
  | Value.byteArr _, Value.enumVal _ => Decidable.isFalse (by simp)
  | Value.byteArr _, Value.arrayVal _ => Decidable.isFalse (by simp)
  | Value.byteArr _, Value.absent => Decidable.isFalse (by simp)
  | Value.enumVal _, Value.sintVal _ => Decidable.isFalse (by simp)
  | Value.enumVal _, Value.uintVal _ => Decidable.isFalse (by simp)
  | Value.enumVal _, Value.floatVal _ => Decidable.isFalse (by simp)
  | Value.enumVal _, Value.strVal _ => Decidable.isFalse (by simp)
  | Value.enumVal _, Value.byteArr _ => Decidable.isFalse (by simp)
  | Value.enumVal x, Value.enumVal y => decidable_of_iff (x = y) (by simp)
  | Value.enumVal _, Value.arrayVal _ => Decidable.isFalse (by simp)
  | Value.enumVal _, Value.absent => Decidable.isFalse (by simp)
  | Value.arrayVal _, Value.sintVal _ => Decidable.isFalse (by simp)
  | Value.arrayVal _, Value.uintVal _ => Decidable.isFalse (by simp)
  | Value.arrayVal _, Value.floatVal _ => Decidable.isFalse (by simp)
  | Value.arrayVal _, Value.strVal _ => Decidable.isFalse (by simp)
  | Value.arrayVal _, Value.byteArr _ => Decidable.isFalse (by simp)
  | Value.arrayVal _, Value.enumVal _ => Decidable.isFalse (by simp)
  | Value.arrayVal xs, Value.arrayVal ys =>
    match valueListDecEq xs ys with
    | Decidable.isTrue h => Decidable.isTrue (by rw [h])
    | Decidable.isFalse h => Decidable.isFalse (by intro hc; injection hc; contradiction)
  | Value.arrayVal _, Value.absent => Decidable.isFalse (by simp)
  | Value.absent, Value.sintVal _ => Decidable.isFalse (by simp)
  | Value.absent, Value.uintVal _ => Decidable.isFalse (by simp)
  | Value.absent, Value.floatVal _ => Decidable.isFalse (by simp)
  | Value.absent, Value.strVal _ => Decidable.isFalse (by simp)
  | Value.absent, Value.byteArr _ => Decidable.isFalse (by simp)
  | Value.absent, Value.enumVal _ => Decidable.isFalse (by simp)
  | Value.absent, Value.arrayVal _ => Decidable.isFalse (by simp)
  | Value.absent, Value.absent => Decidable.isTrue rfl

/-- Decidable equality for lists of `Value`s, mutually with `valueDecEq`. -/
def valueListDecEq : (xs ys : List Value) → Decidable (xs = ys)
  | [], [] => Decidable.isTrue rfl
  | [], _ :: _ => Decidable.isFalse (by simp)
  | _ :: _, [] => Decidable.isFalse (by simp)
  | x :: xs, y :: ys =>
    match valueDecEq x y, valueListDecEq xs ys with
    | Decidable.isTrue h1, Decidable.isTrue h2 => Decidable.isTrue (by rw [h1, h2])
    | Decidable.isFalse h1, _ => Decidable.isFalse (by intro hc; injection hc; contradiction)
    | _, Decidable.isFalse h2 => Decidable.isFalse (by intro hc; injection hc; contradiction)

end

instance : DecidableEq Value := valueDecEq

/-- The scalar families of the base-type codes. -/
inductive BaseKind where
  | enumK
  | sintK
  | uintK
  | strK
  | floatK
  | byteK
deriving DecidableEq, Repr

/-- Modelled from the spec: the base-type code table — each code carries a
scalar family and the declared scalar byte width (enum 1; signed and unsigned
integers at widths 1, 2 and 4; string; floats at widths 4 and 8; any other
code is read as a raw byte array). -/
def baseTypeInfo : Nat → BaseKind × Nat
  | 0 => (BaseKind.enumK, 1)
  | 1 => (BaseKind.sintK, 1)
  | 2 => (BaseKind.uintK, 1)
  | 3 => (BaseKind.sintK, 2)
  | 4 => (BaseKind.uintK, 2)
  | 5 => (BaseKind.sintK, 4)
  | 6 => (BaseKind.uintK, 4)
  | 7 => (BaseKind.strK, 1)
  | 8 => (BaseKind.floatK, 4)
  | 9 => (BaseKind.floatK, 8)
  | _ => (BaseKind.byteK, 1)

/-- The max-representable-signed sentinel value for a `len`-byte signed
integer (the spec's min/max sentinel pattern). -/
def maxSigned (len : Nat) : Nat := 2 ^ (8 * len - 1) - 1

/-- Two's-complement reading of an unsigned `len`-byte value. -/
def toSigned (len n : Nat) : Int :=
  if n < 2 ^ (8 * len - 1) then (n : Int) else (n : Int) - 2 ^ (8 * len)

/-- Two's-complement re-encoding of a signed value into `len` bytes. -/
def fromSigned (len : Nat) (v : Int) : Nat := (v % ((2 ^ (8 * len) : Nat) : Int)).toNat

/-- Modelled from the spec: decode one scalar from its byte window in the
declared endianness.  The width-appropriate sentinel pattern — all bits set
for enums, unsigned integers and floats, the max-representable value for
signed integers — becomes the explicit absent marker, never the numeric
extreme.  (The string and byte-array families are handled at the window
level, not per scalar.) -/
def decodeScalar (k : BaseKind) (big : Bool) (w : List Nat) : Value :=
  match k with
  | BaseKind.enumK =>
    if w.all (fun b => b == 255) then Value.absent else Value.enumVal (fromBytes big w)
  | BaseKind.uintK =>
    if w.all (fun b => b == 255) then Value.absent else Value.uintVal (fromBytes big w)
  | BaseKind.floatK =>
    if w.all (fun b => b == 255) then Value.absent else Value.floatVal (fromBytes big w)
  | BaseKind.sintK =>
    if fromBytes big w = maxSigned w.length then Value.absent
    else Value.sintVal (toSigned w.length (fromBytes big w))
  | BaseKind.strK => Value.byteArr w
  | BaseKind.byteK => Value.byteArr w

/-- Re-encode one scalar at the declared size and endianness; the absent
marker maps back to the family's sentinel pattern. -/
def encodeScalar (k : BaseKind) (size : Nat) (big : Bool) : Value → List Nat
  | Value.absent =>
    match k with
    | BaseKind.sintK => toBytes big size (maxSigned size)
    | BaseKind.strK => List.replicate size 0
    | _ => List.replicate size 255
  | Value.enumVal v => toBytes big size v
  | Value.uintVal v => toBytes big size v
  | Value.floatVal v => toBytes big size v
  | Value.sintVal v => toBytes big size (fromSigned size v)
  | Value.strVal bs => bs
  | Value.byteArr bs => bs
  | Value.arrayVal _ => []

/-- Split a window into `cnt` chunks of `w` bytes each. -/
def chunksOf (w : Nat) : Nat → List Nat → List (List Nat)
  | 0, _ => []
  | n + 1, bs => bs.take w :: chunksOf w n (bs.drop w)

/-- Modelled from the spec: `decode_value(bytes, base_type, width, count,
endianness)` — a pure function from a byte window to a `Value`.  A string is
one value for the whole window, absent when fully null; a byte array is the
raw window, absent on the all-bits-set invalid-char pattern; a numeric family
reads `count` scalars of `width` bytes each, as a bare scalar when the count
is one and as a fixed-length array otherwise, and fails with
`FieldWidthMismatch` when the declared width times the count does not cover
the byte window evenly (e.g. a 3-byte window declared as 4-byte integers). -/
def decodeValue (baseType width count : Nat) (big : Bool) (window : List Nat) :
    Except DecodeError Value :=
  match (baseTypeInfo baseType).1 with
  | BaseKind.strK =>
    Except.ok (if window.all (fun b => b == 0) then Value.absent else Value.strVal window)
  | BaseKind.byteK =>
    Except.ok (if window.all (fun b => b == 255) then Value.absent else Value.byteArr window)
  | k =>
    if window.length = width * count then
      if count = 1 then Except.ok (decodeScalar k big window)
      else Except.ok (Value.arrayVal ((chunksOf width count window).map (decodeScalar k big)))
    else Except.error DecodeError.fieldWidthMismatch

/-- Modelled from the spec: re-encoding of one field value at the field's
declared total size and endianness; arrays re-encode element-wise at the
base type's scalar width, and the absent marker maps back to the family's
sentinel pattern for the whole window. -/
def encodeValue (baseType size : Nat) (big : Bool) (v : Value) : List Nat :=
  match v with
  | Value.arrayVal vs =>
    vs.flatMap (encodeScalar (baseTypeInfo baseType).1 (baseTypeInfo baseType).2 big)
  | v => encodeScalar (baseTypeInfo baseType).1 size big v

/-! ## Frames, definitions, and the per-segment Definition Table
(Segment Decoder, modelled from the spec) -/

/-- One field of a definition frame: field identifier, byte size, base type. -/
structure FieldDef where
  fieldId : Nat
  size : Nat
  baseType : Nat
deriving DecidableEq, Repr

/-- Modelled from the spec: a Definition — the layout for one frame type:
an architecture (endianness) byte and an ordered field list. -/
structure FrameDef where
  arch : Nat
  fields : List FieldDef
deriving DecidableEq, Repr

/-- A nonzero architecture byte selects big-endian field decoding. -/
def FrameDef.isBig (d : FrameDef) : Bool := d.arch != 0

/-- A decoded frame: either a definition frame (entered into the Definition
Table) or a data frame carrying one record's field identifier/value pairs. -/
inductive Frame where
  | defn (localId : Nat) (d : FrameDef)
  | data (localId : Nat) (fields : List (Nat × Value))
deriving DecidableEq

/-- One decoded segment: protocol version and the ordered decoded frames. -/
structure Segment where
  protocol : Nat
  frames : List Frame
deriving DecidableEq

/-- The per-segment Definition Table: newest entries in front, so a later
definition frame for the same type identifier supersedes the earlier one. -/
def tblLookup : List (Nat × FrameDef) → Nat → Option FrameDef
  | [], _ => none
  | (k, d) :: t, id => if k = id then some d else tblLookup t id

/-- Byte encoding of one field description inside a definition frame. -/
def encodeFieldDef (f : FieldDef) : List Nat := [f.fieldId, f.size, f.baseType]

/-- Modelled from the spec: read `n` field descriptions (three bytes each)
from a definition frame body, returning them and the unconsumed remainder. -/
def readFieldDefs : Nat → List Nat → Option (List FieldDef × List Nat)
  | 0, bs => some ([], bs)
  | n + 1, fid :: sz :: bt :: bs =>
    match readFieldDefs n bs with
    | some (fs, r) => some (FieldDef.mk fid sz bt :: fs, r)
    | none => none
  | _ + 1, _ => none

/-- Modelled from the spec: decode the fields of one data frame, taking
exactly each field's declared size from the window, in definition order.
Each field's scalar width comes from its base type and the element count
from the field size, so a size the width does not divide evenly surfaces the
Value Decoder's `FieldWidthMismatch`. -/
def decodeDataFields (big : Bool) : List FieldDef → List Nat →
    Except DecodeError (List (Nat × Value) × List Nat)
  | [], bs => Except.ok ([], bs)
  | f :: fs, bs =>
    if f.size ≤ bs.length then
      match decodeValue f.baseType (baseTypeInfo f.baseType).2
          (f.size / (baseTypeInfo f.baseType).2) big (bs.take f.size) with
      | Except.error e => Except.error e
      | Except.ok v =>
        match decodeDataFields big fs (bs.drop f.size) with
        | Except.ok (vs, r) => Except.ok ((f.fieldId, v) :: vs, r)
        | Except.error e => Except.error e
    else Except.error DecodeError.truncatedStream

/-- Re-encode one record's field values using the same Definition ordering. -/
def encodeDataFields (big : Bool) : List FieldDef → List (Nat × Value) → Option (List Nat)
  | [], [] => some []
  | f :: fs, (fid, v) :: vs =>
    if fid = f.fieldId then
      match encodeDataFields big fs vs with
      | some r => some (encodeValue f.baseType f.size big v ++ r)
      | none => none
    else none
  | _, _ => none

/-- Modelled from the spec: decode one frame.  The discriminator byte's high
bit distinguishes definition frames from data frames; a data frame whose type
identifier is absent from the Definition Table fails with
`undefinedFrameType` (no default layout is ever substituted). -/
def decodeFrame (tbl : List (Nat × FrameDef)) :
    List Nat → Except DecodeError (Frame × List (Nat × FrameDef) × List Nat)
  | [] => Except.error DecodeError.truncatedStream
  | disc :: rest =>
    if 128 ≤ disc then
      match rest with
      | arch :: cnt :: rest2 =>
        match readFieldDefs cnt rest2 with
        | some (fs, r) =>
          Except.ok (Frame.defn (disc - 128) (FrameDef.mk arch fs),
            (disc - 128, FrameDef.mk arch fs) :: tbl, r)
        | none => Except.error DecodeError.truncatedStream
      | _ => Except.error DecodeError.truncatedStream
    else
      match tblLookup tbl disc with
      | none => Except.error DecodeError.undefinedFrameType
      | some d =>
        match decodeDataFields d.isBig d.fields rest with
        | Except.ok (vs, r) => Except.ok (Frame.data disc vs, tbl, r)
        | Except.error e => Except.error e

/-- Modelled from the spec: decode all frames of a segment body.  A failure
carries the remaining bytes at the failure point, so the position of the
offending frame is observable.  Fuel bounds the recursion; every frame
consumes at least its discriminator byte, so `body.length + 1` fuel always
suffices. -/
def decodeFrames : Nat → List (Nat × FrameDef) → List Nat →
    Except (DecodeError × List Nat) (List Frame)
  | _, _, [] => Except.ok []
  | 0, _, bs => Except.error (DecodeError.truncatedStream, bs)
  | fuel + 1, tbl, bs =>
    match decodeFrame tbl bs with
    | Except.error e => Except.error (e, bs)
    | Except.ok (f, tbl2, r) =>
      match decodeFrames fuel tbl2 r with
      | Except.ok fs => Except.ok (f :: fs)
      | Except.error e => Except.error e

/-- Re-encode one frame, threading the same Definition Table the decoder
builds; a data frame needs its Definition to recover the field sizes. -/
def encodeFrame1 (tbl : List (Nat × FrameDef)) :
    Frame → Option (List Nat × List (Nat × FrameDef))
  | Frame.defn id d =>
    some ((128 + id) :: d.arch :: d.fields.length :: d.fields.flatMap encodeFieldDef,
      (id, d) :: tbl)
  | Frame.data id vs =>
    match tblLookup tbl id with
    | none => none
    | some d =>
      match encodeDataFields d.isBig d.fields vs with
      | some body => some (id :: body, tbl)
      | none => none

/-- Re-encode a list of frames with the same Definition Table ordering. -/
def encodeFrames (tbl : List (Nat × FrameDef)) : List Frame → Option (List Nat)
  | [] => some []
  | f :: fs =>
    match encodeFrame1 tbl f with
    | none => none
    | some (pre, tbl2) =>
      match encodeFrames tbl2 fs with
      | some r => some (pre ++ r)
      | none => none

/-- Running checksum over a byte list (sum modulo 256). -/
def chksum (l : List Nat) : Nat := l.foldl (fun a b => (a + b) % 256) 0

/-- Modelled from the spec: `parse_file` / `decode_stream` — locate, validate
and decode one self-contained segment at the front of the buffer, returning
the unconsumed remainder, the decoded `Segment`, and the soft
segment-checksum-mismatch warning flag.  The five-byte header declares its
own size, the protocol version, the body length, and a header checksum that
is verified first; fewer remaining bytes than declared is `truncatedStream`. -/
def parse_file (bs : List Nat) : Except (DecodeError × List Nat) (List Nat × Segment × Bool) :=
  match bs with
  | hs :: pr :: bl :: bh :: ck :: rest =>
    if hs = 5 then
      if ck = chksum [hs, pr, bl, bh] then
        let bodyLen := bl + 256 * bh
        if bodyLen + 1 ≤ rest.length then
          match decodeFrames ((rest.take bodyLen).length + 1) [] (rest.take bodyLen) with
          | Except.error e => Except.error e
          | Except.ok frames =>
            Except.ok (rest.drop (bodyLen + 1), Segment.mk pr frames,
              rest.getD bodyLen 0 != chksum (hs :: pr :: bl :: bh :: ck :: rest.take bodyLen))
        else Except.error (DecodeError.truncatedStream, bs)
      else Except.error (DecodeError.headerChecksumMismatch, bs)
    else Except.error (DecodeError.invalidHeader, bs)
  | _ => Except.error (DecodeError.invalidHeader, bs)

/-- Re-encode a decoded segment: body frames with the same Definition Table
ordering, the five-byte header with recomputed header checksum, and the
recomputed trailing checksum over header plus body. -/
def encodeSegment (s : Segment) : Option (List Nat) :=
  match encodeFrames [] s.frames with
  | none => none
  | some body =>
    some ([5, s.protocol, body.length % 256, body.length / 256,
           chksum [5, s.protocol, body.length % 256, body.length / 256]] ++ body ++
          [chksum ([5, s.protocol, body.length % 256, body.length / 256,
                    chksum [5, s.protocol, body.length % 256, body.length / 256]] ++ body)])

/-- The converter's per-file decode loop (`while remaining.len() > 0`):
repeatedly apply `parse_file` to the remaining buffer, collecting decoded
segments in order.  Fuel bounds the recursion; every successful `parse_file`
call consumes at least the header, so `buffer.length + 1` fuel suffices. -/
def streamLoop : Nat → List Nat → Except (DecodeError × List Nat) (List Segment)
  | _, [] => Except.ok []
  | 0, bs => Except.error (DecodeError.truncatedStream, bs)
  | fuel + 1, bs =>
    match parse_file bs with
    | Except.error e => Except.error e
    | Except.ok (r, seg, _) =>
      match streamLoop fuel r with
      | Except.ok segs => Except.ok (seg :: segs)
      | Except.error e => Except.error e

/-! ## Multi-step decoding relation (used to speak about a frame preceded by
an arbitrary decoded prefix inside one segment body) -/

/-- `Steps tbl bs fs tbl2 r`: starting from table `tbl` and body bytes `bs`,
some finite number of successful `decodeFrame` steps produce the frames `fs`
and leave table `tbl2` and remaining bytes `r`. -/
inductive Steps : List (Nat × FrameDef) → List Nat → List Frame →
    List (Nat × FrameDef) → List Nat → Prop
  | refl (tbl : List (Nat × FrameDef)) (bs : List Nat) : Steps tbl bs [] tbl bs
  | step {tbl bs f tbl1 r1 fs tbl2 r2} :
      decodeFrame tbl bs = Except.ok (f, tbl1, r1) →
      Steps tbl1 r1 fs tbl2 r2 →
      Steps tbl bs (f :: fs) tbl2 r2

/-! ## The converter binary `fit_to_json.rs` -/

/-- The final path component of a file path: stem plus optional extension
(the part after the last dot), mirroring how `Path::with_extension` and
`Path::file_name` treat file names. -/
structure FName where
  stem : String
  ext : Option String
deriving DecidableEq, Repr

/-- A file-system path: directory components plus an optional final file-name
component (`none` models `PathBuf::new()` or a root path). -/
structure FsPath where
  dirs : List String
  fname : Option FName
deriving DecidableEq, Repr

/-- Render a file-name component back to a single string (used when a path is
joined below an existing path, as `PathBuf::join` does). -/
def FName.render (f : FName) : String :=
  match f.ext with
  | some e => f.stem ++ "." ++ e
  | none => f.stem

/-- `PathBuf::with_extension`: replace the extension of the final component;
a path without a file name is unchanged. -/
def FsPath.withExtension (p : FsPath) (e : String) : FsPath :=
  { p with fname := p.fname.map (fun f => FName.mk f.stem (some e)) }

/-- `PathBuf::join` with a bare file name: the receiver's components all
become directories and the argument becomes the final component. -/
def FsPath.joinFile (p : FsPath) (f : FName) : FsPath :=
  { dirs := p.dirs ++ (p.fname.map FName.render).toList, fname := some f }

/-- `PathBuf::new()`: the empty path passed to the aggregate-mode write. -/
def emptyPath : FsPath := FsPath.mk [] none

/-- The converter's `OutputLocation` enum. -/
inductive OutputLocation where
  | inplace
  | localDirectory (p : FsPath)
  | localFile (p : FsPath)
deriving DecidableEq, Repr

/-- `OutputLocation::new`: an output path that currently exists as a
directory selects per-input directory output; any other path (existing file
or not existing at all) is an explicit single output file.  The file-system
`is_dir` test is abstracted as a boolean function on paths. -/
def OutputLocation.new (isDir : FsPath → Bool) (location : FsPath) : OutputLocation :=
  if isDir location then OutputLocation.localDirectory location
  else OutputLocation.localFile location

/-- `main`'s `collect_all` flag: aggregate only for an explicit output file. -/
def collectAll (loc : OutputLocation) : Bool :=
  match loc with
  | OutputLocation.localFile _ => true
  | _ => false

/-- The shape of the serialized output: `serde_json::to_string(&data[0])`
yields the JSON of the single value, `serde_json::to_string(data)` a JSON
array of the values. -/
inductive Json where
  | single (s : Segment)
  | array (l : List Segment)
deriving DecidableEq

/-- The serialization branch of `OutputLocation::write_json_file`:
a one-element list is serialized as the bare value, anything else as an
array. -/
def write_json_data (data : List Segment) : Json :=
  match data with
  | [s] => Json.single s
  | _ => Json.array data

/-- The output-path resolution of `OutputLocation::write_json_file`:
in-place output replaces the input's extension with `json`; directory output
joins the directory with the input's file name and replaces the extension;
explicit-file output is exactly the configured path.  `none` models the
`filename.file_name().unwrap()` panic for a path without a file name. -/
def outName (loc : OutputLocation) (filename : FsPath) : Option FsPath :=
  match loc with
  | OutputLocation.inplace => some (filename.withExtension "json")
  | OutputLocation.localDirectory dest =>
    filename.fname.map (fun f => (dest.joinFile f).withExtension "json")
  | OutputLocation.localFile dest => some dest

/-- `OutputLocation::write_json_file`: resolve the output path and pair it
with the serialized data that is written there. -/
def write_json_file (loc : OutputLocation) (filename : FsPath) (data : List Segment) :
    Option (FsPath × Json) :=
  (outName loc filename).map (fun o => (o, write_json_data data))

/-- Observable effects of one converter run, in order: reading a whole input
file, decoding a whole buffer into segments, and writing serialized data to a
resolved output path. -/
inductive Event where
  | eRead (p : FsPath) (contents : List Nat)
  | eDecode (p : FsPath) (segs : List Segment)
  | eWrite (target : FsPath) (doc : Json)
deriving DecidableEq

/-- The ways a run of `main` dies: an `unwrap` on a failed `parse_file`, or
an `unwrap` on `file_name()` for a path without a final component.  Either
aborts the whole process. -/
inductive RunError where
  | parseError (p : FsPath) (e : DecodeError)
  | noFileName (p : FsPath)
deriving DecidableEq, Repr

/-- One iteration of `main`'s `for file in opt.files` loop.  The state is the
`fit_data` accumulator and the read `buffer` (into which `read_to_end`
appends).  The whole file is read, the buffer is decoded to exhaustion, and
in non-aggregate mode the accumulated data is written out and cleared; the
buffer is cleared at the end of every iteration. -/
def processFile (loc : OutputLocation) (collect : Bool)
    (st : List Segment × List Nat) (file : FsPath × List Nat) :
    Except RunError ((List Segment × List Nat) × List Event) :=
  match streamLoop ((st.2 ++ file.2).length + 1) (st.2 ++ file.2) with
  | Except.error e => Except.error (RunError.parseError file.1 e.1)
  | Except.ok segs =>
    if collect then
      Except.ok ((st.1 ++ segs, []),
        [Event.eRead file.1 file.2, Event.eDecode file.1 segs])
    else
      match write_json_file loc file.1 (st.1 ++ segs) with
      | none => Except.error (RunError.noFileName file.1)
      | some (o, j) =>
        Except.ok (([], []),
          [Event.eRead file.1 file.2, Event.eDecode file.1 segs, Event.eWrite o j])

/-- `main`'s loop over all input files, threading the accumulator state and
collecting the event trace. -/
def mainLoop (loc : OutputLocation) (collect : Bool) :
    List Segment × List Nat → List (FsPath × List Nat) →
    Except RunError ((List Segment × List Nat) × List Event)
  | st, [] => Except.ok (st, [])
  | st, f :: fs =>
    match processFile loc collect st f with
    | Except.error e => Except.error e
    | Except.ok (st2, evs) =>
      match mainLoop loc collect st2 fs with
      | Except.error e => Except.error e
      | Except.ok (st3, evs2) => Except.ok (st3, evs ++ evs2)

/-- `main`'s output-location resolution: no `--output` flag means in-place
output, otherwise classify the given path. -/
def mainLoc (isDir : FsPath → Bool) (output : Option FsPath) : OutputLocation :=
  match output with
  | none => OutputLocation.inplace
  | some l => OutputLocation.new isDir l

/-- The whole of `main`: classify the output location, process every input
file, and in aggregate mode write all accumulated data to the explicit
output file at the end (the input-file argument of that final write is
`PathBuf::new()`, which `LocalFile` ignores). -/
def mainRun (isDir : FsPath → Bool) (output : Option FsPath)
    (files : List (FsPath × List Nat)) : Except RunError (List Event) :=
  match mainLoop (mainLoc isDir output) (collectAll (mainLoc isDir output)) ([], []) files with
  | Except.error e => Except.error e
  | Except.ok (st, evs) =>
    if collectAll (mainLoc isDir output) then
      match write_json_file (mainLoc isDir output) emptyPath st.1 with
      | none => Except.error (RunError.noFileName emptyPath)
      | some (o, j) => Except.ok (evs ++ [Event.eWrite o j])
    else Except.ok evs

/-- The write events of a trace, with their targets and contents. -/
def writesOf (evs : List Event) : List (FsPath × Json) :=
  evs.filterMap (fun e =>
    match e with
    | Event.eWrite t j => some (t, j)
    | _ => none)

/-- Checks that every decode event is immediately preceded by the read of the
very buffer it decodes: the full contents of one input file, read before any
decode step ran, with the decoded segments a pure function of those complete
contents. -/
def readsPrecedeDecodes : List Event → Bool
  | [] => true
  | Event.eRead p c :: Event.eDecode q segs :: rest2 =>
    decide (p = q) &&
      (match streamLoop (c.length + 1) c with
       | Except.ok segs2 => decide (segs2 = segs)
       | Except.error _ => false) &&
      readsPrecedeDecodes rest2
  | Event.eDecode _ _ :: _ => false
  | _ :: rest => readsPrecedeDecodes rest

/-! ## Concrete inputs used by the witnesses -/

/-- A minimal valid segment: empty body, protocol version 16. -/
def bytesEmptySeg : List Nat := [5, 16, 0, 0, 21, 42]

/-- The decoding of `bytesEmptySeg`. -/
def segEmpty : Segment := Segment.mk 16 []

/-- A valid segment whose body holds one definition frame (local type 0,
with a two-byte signed field, a four-byte string field, a two-byte unsigned
field and a four-element one-byte-unsigned array field) and one data frame
for it in which the unsigned field carries the all-bits-set sentinel and one
array element does too. -/
def bytesRichSeg : List Nat :=
  [5, 16, 28, 0, 49,
   128, 0, 4, 10, 2, 3, 11, 4, 7, 12, 2, 4, 13, 4, 2,
   0, 52, 18, 65, 66, 0, 0, 255, 255, 1, 2, 255, 4,
   253]

/-- The decoding of `bytesRichSeg`. -/
def segRich : Segment :=
  Segment.mk 16
    [Frame.defn 0 (FrameDef.mk 0
      [FieldDef.mk 10 2 3, FieldDef.mk 11 4 7, FieldDef.mk 12 2 4, FieldDef.mk 13 4 2]),
     Frame.data 0
      [(10, Value.sintVal 4660), (11, Value.strVal [65, 66, 0, 0]), (12, Value.absent),
       (13, Value.arrayVal [Value.uintVal 1, Value.uintVal 2, Value.absent, Value.uintVal 4])]]

/-- Input path `a.fit`. -/
def fitA : FsPath := FsPath.mk [] (some (FName.mk "a" (some "fit")))

/-- Input path `b.fit`. -/
def fitB : FsPath := FsPath.mk [] (some (FName.mk "b" (some "fit")))

/-- An explicit (non-directory) output path `out.json`. -/
def outJson : FsPath := FsPath.mk [] (some (FName.mk "out" (some "json")))

/-! ## Theorems -/

/-- Little-endian byte decoding followed by re-encoding at the same width is
the identity on lists of genuine bytes. -/
theorem toBytesLE_fromBytesLE (bs : List Nat) (h : ∀ b ∈ bs, b < 256) :
    toBytesLE bs.length (fromBytesLE bs) = bs := by
  induction bs with
  | nil => rfl
  | cons b bs ih =>
    have hb : b < 256 := h b (List.mem_cons_self _ _)
    have h1 : (b + 256 * fromBytesLE bs) % 256 = b := by
      rw [Nat.add_mul_mod_self_left, Nat.mod_eq_of_lt hb]
    have h2 : (b + 256 * fromBytesLE bs) / 256 = fromBytesLE bs := by
      rw [Nat.add_mul_div_left _ _ (by norm_num : 0 < 256), Nat.div_eq_of_lt hb, Nat.zero_add]
    simp only [List.length_cons, fromBytesLE, toBytesLE, h1, h2,
      ih (fun x hx => h x (List.mem_cons_of_mem _ hx))]

/-- Endianness-aware byte decoding followed by re-encoding is the identity. -/
theorem toBytes_fromBytes (big : Bool) (bs : List Nat) (h : ∀ b ∈ bs, b < 256) :
    toBytes big bs.length (fromBytes big bs) = bs := by
  cases big with
  | false => simpa [toBytes, fromBytes] using toBytesLE_fromBytesLE bs h
  | true =>
    have hr := toBytesLE_fromBytesLE bs.reverse (fun x hx => h x (List.mem_reverse.1 hx))
    simp only [toBytes, fromBytes, if_pos]
    rw [← List.length_reverse, hr, List.reverse_reverse]

/-- A window all of whose bytes equal `c` is the replicate of `c` at its
length. -/
theorem all_eq_replicate (c : Nat) (w : List Nat) (size : Nat) (hl : w.length = size)
    (hall : w.all (fun b => b == c)) : List.replicate size c = w := by
  have hmem : ∀ b ∈ w, b = c := by
    intro b hbw
    simpa using List.all_eq_true.1 hall b hbw
  exact (List.eq_replicate_iff.2 ⟨hl, hmem⟩).symm

/-- A list of genuine bytes decodes below the width's range bound. -/
theorem fromBytesLE_lt (bs : List Nat) (h : ∀ b ∈ bs, b < 256) :
    fromBytesLE bs < 2 ^ (8 * bs.length) := by
  induction bs with
  | nil => simp [fromBytesLE]
  | cons b bs ih =>
    have hb : b < 256 := h b (List.mem_cons_self _ _)
    have hr := ih (fun x hx => h x (List.mem_cons_of_mem _ hx))
    simp only [fromBytesLE, List.length_cons]
    have hmul : 8 * (bs.length + 1) = 8 * bs.length + 8 := by ring
    rw [hmul, pow_add]
    have h28 : (2 : Nat) ^ 8 = 256 := by norm_num
    rw [h28]
    calc b + 256 * fromBytesLE bs < 256 + 256 * fromBytesLE bs := by omega
    _ = 256 * (fromBytesLE bs + 1) := by ring
    _ ≤ 256 * 2 ^ (8 * bs.length) := Nat.mul_le_mul_left 256 (by omega)
    _ = 2 ^ (8 * bs.length) * 256 := by ring

/-- Endianness-aware version of the range bound. -/
theorem fromBytes_lt (big : Bool) (bs : List Nat) (h : ∀ b ∈ bs, b < 256) :
    fromBytes big bs < 2 ^ (8 * bs.length) := by
  cases big with
  | false => simpa [fromBytes] using fromBytesLE_lt bs h
  | true =>
    have hr := fromBytesLE_lt bs.reverse (fun x hx => h x (List.mem_reverse.1 hx))
    simpa [fromBytes] using hr

/-- Two's-complement reading followed by re-encoding is the identity on the
unsigned range of the width. -/
theorem fromSigned_toSigned (len n : Nat) (h : n < 2 ^ (8 * len)) :
    fromSigned len (toSigned len n) = n := by
  unfold fromSigned toSigned
  have hcast : ((2 ^ (8 * len) : Nat) : Int) = (2 : Int) ^ (8 * len) := by push_cast; ring
  rw [hcast]
  split
  · rw [Int.emod_eq_of_lt (by positivity) (by exact_mod_cast h)]
    simp
  · have hsub : (n : Int) - (2 : Int) ^ (8 * len) =
        (n : Int) + (2 : Int) ^ (8 * len) * (-1) := by ring
    rw [hsub, Int.add_mul_emod_self_left,
      Int.emod_eq_of_lt (by positivity) (by exact_mod_cast h)]
    simp

/-- Decoding one scalar window and re-encoding the value at the window's
length reproduces the window, for every scalar family: sentinel patterns go
through the absent marker and back, everything else through the numeric
value. -/
theorem encodeScalar_decodeScalar (k : BaseKind) (big : Bool) (w : List Nat)
    (hb : ∀ b ∈ w, b < 256) :
    encodeScalar k w.length big (decodeScalar k big w) = w := by
  cases k with
  | enumK =>
    simp only [decodeScalar]
    by_cases hall : w.all (fun b => b == 255)
    · rw [if_pos hall]
      exact all_eq_replicate 255 w w.length rfl hall
    · rw [if_neg hall]
      exact toBytes_fromBytes big w hb
  | uintK =>
    simp only [decodeScalar]
    by_cases hall : w.all (fun b => b == 255)
    · rw [if_pos hall]
      exact all_eq_replicate 255 w w.length rfl hall
    · rw [if_neg hall]
      exact toBytes_fromBytes big w hb
  | floatK =>
    simp only [decodeScalar]
    by_cases hall : w.all (fun b => b == 255)
    · rw [if_pos hall]
      exact all_eq_replicate 255 w w.length rfl hall
    · rw [if_neg hall]
      exact toBytes_fromBytes big w hb
  | sintK =>
    simp only [decodeScalar]
    by_cases hs : fromBytes big w = maxSigned w.length
    · rw [if_pos hs]
      show toBytes big w.length (maxSigned w.length) = w
      rw [← hs]
      exact toBytes_fromBytes big w hb
    · rw [if_neg hs]
      show toBytes big w.length (fromSigned w.length (toSigned w.length (fromBytes big w))) = w
      rw [fromSigned_toSigned w.length (fromBytes big w) (fromBytes_lt big w hb)]
      exact toBytes_fromBytes big w hb
  | strK => rfl
  | byteK => rfl

/-- No scalar decode ever produces an array value. -/
theorem decodeScalar_ne_array (k : BaseKind) (big : Bool) (w : List Nat)
    (vs : List Value) : decodeScalar k big w ≠ Value.arrayVal vs := by
  cases k <;> simp only [decodeScalar] <;> first | (split <;> simp) | simp

/-- On non-array values, window-level encoding is scalar encoding at the
window size. -/
theorem encodeValue_eq_encodeScalar (bt size : Nat) (big : Bool) (v : Value)
    (hv : ∀ vs, v ≠ Value.arrayVal vs) :
    encodeValue bt size big v = encodeScalar (baseTypeInfo bt).1 size big v := by
  cases v with
  | arrayVal vs => exact absurd rfl (hv vs)
  | _ => rfl

/-- Every base-type code declares a nonzero scalar width. -/
theorem baseTypeInfo_width_pos (bt : Nat) : (baseTypeInfo bt).2 ≠ 0 := by
  unfold baseTypeInfo
  split <;> simp

/-- Chunk-wise decoding of a fixed-length array followed by element-wise
re-encoding at the scalar width reproduces the window. -/
theorem encode_chunks (k : BaseKind) (big : Bool) (w : Nat) (hw : w ≠ 0) :
    ∀ (cnt : Nat) (window : List Nat), window.length = w * cnt →
    (∀ b ∈ window, b < 256) →
    ((chunksOf w cnt window).map (decodeScalar k big)).flatMap (encodeScalar k w big)
      = window := by
  intro cnt
  induction cnt with
  | zero =>
    intro window hlen _
    have hnil : window = [] := List.length_eq_zero.1 (by simpa using hlen)
    subst hnil
    rfl
  | succ m ih =>
    intro window hlen hb
    have hwle : w ≤ window.length := by
      rw [hlen]
      calc w = w * 1 := (Nat.mul_one w).symm
      _ ≤ w * (m + 1) := Nat.mul_le_mul_left w (by omega)
    have htk : (window.take w).length = w := by
      simp [List.length_take]
      omega
    have hdr : (window.drop w).length = w * m := by
      simp only [List.length_drop, hlen]
      have : w * (m + 1) = w * m + w := by ring
      omega
    simp only [chunksOf, List.map_cons, List.flatMap_cons]
    rw [ih (window.drop w) hdr (fun x hx => hb x (List.mem_of_mem_drop hx))]
    have hrt := encodeScalar_decodeScalar k big (window.take w)
      (fun x hx => hb x (List.mem_of_mem_take hx))
    rw [htk] at hrt
    rw [hrt, List.take_append_drop]

/-- Decoding one field's byte window with the field's declared base type,
scalar width and element count, and re-encoding the value at the window's
total size, reproduces the window. -/
theorem encodeValue_decodeValue (bt : Nat) (big : Bool) (window : List Nat) (v : Value)
    (h : decodeValue bt (baseTypeInfo bt).2 (window.length / (baseTypeInfo bt).2) big window
      = Except.ok v)
    (hb : ∀ b ∈ window, b < 256) :
    encodeValue bt window.length big v = window := by
  cases hk : (baseTypeInfo bt).1
  case strK =>
    simp only [decodeValue, hk, Except.ok.injEq] at h
    subst h
    by_cases hz : window.all (fun b => b == 0)
    · rw [if_pos hz]
      rw [encodeValue_eq_encodeScalar bt window.length big Value.absent (by simp), hk]
      exact all_eq_replicate 0 window window.length rfl hz
    · rw [if_neg hz]
      rw [encodeValue_eq_encodeScalar bt window.length big (Value.strVal window) (by simp), hk]
      rfl
  case byteK =>
    simp only [decodeValue, hk, Except.ok.injEq] at h
    subst h
    by_cases hz : window.all (fun b => b == 255)
    · rw [if_pos hz]
      rw [encodeValue_eq_encodeScalar bt window.length big Value.absent (by simp), hk]
      exact all_eq_replicate 255 window window.length rfl hz
    · rw [if_neg hz]
      rw [encodeValue_eq_encodeScalar bt window.length big (Value.byteArr window) (by simp), hk]
      rfl
  all_goals
    simp only [decodeValue, hk] at h
    split at h
    case isFalse => exact absurd h (by simp)
    case isTrue hlen =>
      split at h
      case isTrue hcnt =>
        simp only [Except.ok.injEq] at h
        subst h
        rw [encodeValue_eq_encodeScalar bt window.length big _
          (decodeScalar_ne_array _ big window), hk]
        exact encodeScalar_decodeScalar _ big window hb
      case isFalse hcnt =>
        simp only [Except.ok.injEq] at h
        subst h
        simp only [encodeValue, hk]
        exact encode_chunks _ big (baseTypeInfo bt).2 (baseTypeInfo_width_pos bt)
          (window.length / (baseTypeInfo bt).2) window hlen hb

/-- Canonicality for data-frame field decoding: a successful decode consumed
exactly a prefix that the encoder reproduces from the decoded values. -/
theorem encodeDataFields_decodeDataFields (big : Bool) (fds : List FieldDef) :
    ∀ bs vs r, decodeDataFields big fds bs = Except.ok (vs, r) → (∀ b ∈ bs, b < 256) →
    ∃ pre, bs = pre ++ r ∧ encodeDataFields big fds vs = some pre := by
  induction fds with
  | nil =>
    intro bs vs r hd _
    simp only [decodeDataFields, Except.ok.injEq, Prod.mk.injEq] at hd
    exact ⟨[], by simp [hd.2.symm], by simp [encodeDataFields, hd.1.symm]⟩
  | cons f fs ih =>
    intro bs vs r hd hb
    simp only [decodeDataFields] at hd
    split at hd
    · rename_i hsz
      cases hv : decodeValue f.baseType (baseTypeInfo f.baseType).2
          (f.size / (baseTypeInfo f.baseType).2) big (bs.take f.size) with
      | error e => rw [hv] at hd; exact absurd hd (by simp)
      | ok v =>
        rw [hv] at hd
        dsimp only at hd
        cases hrec : decodeDataFields big fs (bs.drop f.size) with
        | error e => rw [hrec] at hd; exact absurd hd (by simp)
        | ok pr =>
          obtain ⟨vs', r'⟩ := pr
          rw [hrec] at hd
          simp only [Except.ok.injEq, Prod.mk.injEq] at hd
          obtain ⟨hvs, hr⟩ := hd
          obtain ⟨pre', hsplit, henc⟩ := ih (bs.drop f.size) vs' r' hrec
            (fun x hx => hb x (List.mem_of_mem_drop hx))
          subst hr
          have hlen : (bs.take f.size).length = f.size := by
            simp [List.length_take, Nat.min_eq_left hsz]
          have hv2 : decodeValue f.baseType (baseTypeInfo f.baseType).2
              ((bs.take f.size).length / (baseTypeInfo f.baseType).2) big (bs.take f.size)
              = Except.ok v := by
            rw [hlen]
            exact hv
          have hval := encodeValue_decodeValue f.baseType big (bs.take f.size) v hv2
            (fun x hx => hb x (List.mem_of_mem_take hx))
          rw [hlen] at hval
          refine ⟨bs.take f.size ++ pre', ?_, ?_⟩
          · conv_lhs => rw [← List.take_append_drop f.size bs]
            rw [hsplit, List.append_assoc]
          · rw [← hvs]
            simp only [encodeDataFields, henc, hval]
            simp
    · exact absurd hd (by simp)

/-- Canonicality for reading field descriptions: a successful read consumed
exactly the encodings of the returned descriptions, whose count is `n`. -/
theorem readFieldDefs_spec : ∀ n bs fs r, readFieldDefs n bs = some (fs, r) →
    fs.length = n ∧ bs = fs.flatMap encodeFieldDef ++ r := by
  intro n
  induction n with
  | zero =>
    intro bs fs r h
    simp only [readFieldDefs, Option.some.injEq, Prod.mk.injEq] at h
    simp [← h.1, ← h.2]
  | succ m ih =>
    intro bs fs r h
    match bs, h with
    | fid :: sz :: bt :: bs', h =>
      simp only [readFieldDefs] at h
      cases hrec : readFieldDefs m bs' with
      | none => rw [hrec] at h; exact absurd h (by simp)
      | some pr =>
        obtain ⟨fs', r'⟩ := pr
        rw [hrec] at h
        simp only [Option.some.injEq, Prod.mk.injEq] at h
        obtain ⟨hfs, hr⟩ := h
        obtain ⟨hlen, hsplit⟩ := ih bs' fs' r' hrec
        subst hfs hr
        simp [encodeFieldDef, hlen, hsplit]

/-- Canonicality for one frame: a successful `decodeFrame` consumed a
nonempty prefix that `encodeFrame1` reproduces from the decoded frame, with
the same resulting Definition Table. -/
theorem encodeFrame1_decodeFrame (tbl : List (Nat × FrameDef)) (bs : List Nat)
    (f : Frame) (tbl2 : List (Nat × FrameDef)) (r : List Nat)
    (hd : decodeFrame tbl bs = Except.ok (f, tbl2, r)) (hb : ∀ b ∈ bs, b < 256) :
    ∃ pre, bs = pre ++ r ∧ pre ≠ [] ∧ encodeFrame1 tbl f = some (pre, tbl2) := by
  match bs, hd with
  | disc :: rest, hd =>
    simp only [decodeFrame] at hd
    split at hd
    · rename_i h128
      match rest, hd with
      | arch :: cnt :: rest2, hd =>
        dsimp only at hd
        cases hread : readFieldDefs cnt rest2 with
        | none => rw [hread] at hd; exact absurd hd (by simp)
        | some pr =>
          obtain ⟨fs, r0⟩ := pr
          rw [hread] at hd
          simp only [Except.ok.injEq, Prod.mk.injEq] at hd
          obtain ⟨hf, htbl, hr⟩ := hd
          obtain ⟨hlen, hsplit⟩ := readFieldDefs_spec cnt rest2 fs r0 hread
          subst hf htbl hr
          refine ⟨disc :: arch :: cnt :: fs.flatMap encodeFieldDef, ?_, by simp, ?_⟩
          · simp [hsplit]
          · simp only [encodeFrame1, hlen]
            rw [Nat.add_sub_cancel' h128]
    · rename_i h128
      cases hlook : tblLookup tbl disc with
      | none => rw [hlook] at hd; exact absurd hd (by simp)
      | some d =>
        rw [hlook] at hd
        dsimp only at hd
        cases hdec : decodeDataFields d.isBig d.fields rest with
        | error e => rw [hdec] at hd; exact absurd hd (by simp)
        | ok pr =>
          obtain ⟨vs, r0⟩ := pr
          rw [hdec] at hd
          simp only [Except.ok.injEq, Prod.mk.injEq] at hd
          obtain ⟨hf, htbl, hr⟩ := hd
          subst hf htbl hr
          obtain ⟨pre', hsplit, henc⟩ := encodeDataFields_decodeDataFields d.isBig d.fields
            rest vs r0 hdec (fun x hx => hb x (List.mem_cons_of_mem _ hx))
          refine ⟨disc :: pre', ?_, by simp, ?_⟩
          · simp [hsplit]
          · simp [encodeFrame1, hlook, henc]

/-- Canonicality for a whole segment body: a successful `decodeFrames` run is
inverted exactly by `encodeFrames` threaded through the same Definition
Table. -/
theorem encodeFrames_decodeFrames : ∀ (fuel : Nat) (tbl : List (Nat × FrameDef))
    (bs : List Nat) (frames : List Frame),
    decodeFrames fuel tbl bs = Except.ok frames → (∀ b ∈ bs, b < 256) →
    encodeFrames tbl frames = some bs := by
  intro fuel
  induction fuel with
  | zero =>
    intro tbl bs frames hd _
    match bs, hd with
    | [], hd =>
      simp only [decodeFrames, Except.ok.injEq] at hd
      subst hd
      rfl
  | succ n ih =>
    intro tbl bs frames hd hb
    match bs, hd with
    | [], hd =>
      simp only [decodeFrames, Except.ok.injEq] at hd
      subst hd
      rfl
    | b :: bs', hd =>
      simp only [decodeFrames] at hd
      cases hf : decodeFrame tbl (b :: bs') with
      | error e => rw [hf] at hd; exact absurd hd (by simp)
      | ok t =>
        obtain ⟨f, tbl2, r⟩ := t
        rw [hf] at hd
        dsimp only at hd
        cases hrest : decodeFrames n tbl2 r with
        | error e => rw [hrest] at hd; exact absurd hd (by simp)
        | ok fs' =>
          rw [hrest] at hd
          simp only [Except.ok.injEq] at hd
          subst hd
          obtain ⟨pre, hsplit, _, henc1⟩ := encodeFrame1_decodeFrame tbl (b :: bs') f tbl2 r hf hb
          have hr : encodeFrames tbl2 fs' = some r := by
            refine ih tbl2 r fs' hrest (fun x hx => hb x ?_)
            rw [hsplit]
            exact List.mem_append_right _ hx
          simp [encodeFrames, henc1, hr, hsplit]

/-- A list of length `n + 1` is its first `n` elements followed by its last
element, read off with `getD`. -/
theorem take_append_getD (l : List Nat) : ∀ n : Nat, l.length = n + 1 →
    l = l.take n ++ [l.getD n 0] := by
  induction l with
  | nil => intro n h; simp at h
  | cons a l ih =>
    intro n h
    cases n with
    | zero =>
      have hl : l = [] := List.length_eq_zero.1 (by simpa using h)
      simp [hl]
    | succ m =>
      have := ih m (by simpa using h)
      simpa [List.getD_cons_succ] using this

/-- C5 (spec-modelled decoder). Round trip: decoding a well-formed segment
(no decode error, clean trailing checksum, nothing left over) and re-encoding
it with the same Definition Table ordering reproduces the original bytes
exactly. -/
theorem decode_encode_roundtrip (bs : List Nat) (seg : Segment)
    (h : parse_file bs = Except.ok ([], seg, false)) (hb : ∀ b ∈ bs, b < 256) :
    encodeSegment seg = some bs := by
  match bs, h with
  | hs :: pr :: bl :: bh :: ck :: rest, h =>
    simp only [parse_file] at h
    split at h
    case isFalse => exact absurd h (by simp)
    case isTrue h5 =>
    split at h
    case isFalse => exact absurd h (by simp)
    case isTrue hck =>
    split at h
    case isFalse => exact absurd h (by simp)
    case isTrue hlen =>
    cases hdec : decodeFrames ((rest.take (bl + 256 * bh)).length + 1) [] (rest.take (bl + 256 * bh)) with
    | error e => rw [hdec] at h; exact absurd h (by simp)
    | ok frames =>
      rw [hdec] at h
      simp only [Except.ok.injEq, Prod.mk.injEq] at h
      obtain ⟨hdrop, hseg, hwarn⟩ := h
      have hrlen : rest.length = (bl + 256 * bh) + 1 := by
        have hle : rest.length ≤ (bl + 256 * bh) + 1 := by
          simpa using List.drop_eq_nil_iff.1 hdrop
        omega
      have hblen : (rest.take (bl + 256 * bh)).length = bl + 256 * bh := by
        simp [List.length_take]
        omega
      have hbodyb : ∀ b ∈ rest.take (bl + 256 * bh), b < 256 := by
        intro x hx
        exact hb x (by
          have : x ∈ rest := List.mem_of_mem_take hx
          simp [this])
      have henc : encodeFrames [] seg.frames = some (rest.take (bl + 256 * bh)) := by
        rw [← hseg]
        exact encodeFrames_decodeFrames _ [] _ frames hdec hbodyb
      have hbl : bl < 256 := hb bl (by simp)
      have hmod : (bl + 256 * bh) % 256 = bl := by
        rw [Nat.add_mul_mod_self_left, Nat.mod_eq_of_lt hbl]
      have hdiv : (bl + 256 * bh) / 256 = bh := by
        rw [Nat.add_mul_div_left _ _ (by norm_num : 0 < 256), Nat.div_eq_of_lt hbl, Nat.zero_add]
      have htrail : rest.getD (bl + 256 * bh) 0 =
          chksum (hs :: pr :: bl :: bh :: ck :: rest.take (bl + 256 * bh)) := by
        simpa using hwarn
      have hrest : rest = rest.take (bl + 256 * bh) ++ [rest.getD (bl + 256 * bh) 0] :=
        take_append_getD rest (bl + 256 * bh) hrlen
      subst h5
      rw [encodeSegment, henc]
      dsimp only
      rw [hblen, hmod, hdiv, ← hseg]
      dsimp only
      rw [← hck]
      conv_rhs => rw [hrest]
      rw [htrail]
      simp

/-- A buffer that `parse_file` accepts is nonempty. -/
theorem parse_file_ne_nil (bs : List Nat) (x : List Nat × Segment × Bool)
    (h : parse_file bs = Except.ok x) : bs ≠ [] := by
  intro hnil
  subst hnil
  exact absurd h (by simp [parse_file])

/-- Stream locality: a segment that parses standalone with nothing left over
parses identically at the front of any longer buffer, leaving exactly the
appended bytes: each call consumes exactly one segment's declared length. -/
theorem parse_file_append (s t : List Nat) (seg : Segment) (w : Bool)
    (h : parse_file s = Except.ok ([], seg, w)) :
    parse_file (s ++ t) = Except.ok (t, seg, w) := by
  match s, h with
  | hs :: pr :: bl :: bh :: ck :: rest, h =>
    simp only [parse_file] at h
    split at h
    case isFalse => exact absurd h (by simp)
    case isTrue h5 =>
    split at h
    case isFalse => exact absurd h (by simp)
    case isTrue hck =>
    split at h
    case isFalse => exact absurd h (by simp)
    case isTrue hlen =>
    cases hdec : decodeFrames ((rest.take (bl + 256 * bh)).length + 1) [] (rest.take (bl + 256 * bh)) with
    | error e => rw [hdec] at h; exact absurd h (by simp)
    | ok frames =>
      rw [hdec] at h
      simp only [Except.ok.injEq, Prod.mk.injEq] at h
      obtain ⟨hdrop, hseg, hw⟩ := h
      have hrlen : rest.length = (bl + 256 * bh) + 1 := by
        have hle : rest.length ≤ (bl + 256 * bh) + 1 := by
          simpa using List.drop_eq_nil_iff.1 hdrop
        omega
      have hconc : (hs :: pr :: bl :: bh :: ck :: rest) ++ t =
          hs :: pr :: bl :: bh :: ck :: (rest ++ t) := by simp
      rw [hconc]
      simp only [parse_file]
      rw [if_pos h5, if_pos hck]
      have hlen2 : (bl + 256 * bh) + 1 ≤ (rest ++ t).length := by
        simp [List.length_append]
        omega
      rw [if_pos hlen2]
      have htake : (rest ++ t).take (bl + 256 * bh) = rest.take (bl + 256 * bh) := by
        apply List.take_append_of_le_length
        omega
      have hgetD : (rest ++ t).getD (bl + 256 * bh) 0 = rest.getD (bl + 256 * bh) 0 := by
        unfold List.getD
        rw [List.get?_append (by omega)]
      have hdropt : (rest ++ t).drop ((bl + 256 * bh) + 1) = t := by
        rw [← hrlen, List.drop_left]
      rw [htake, hdec]
      dsimp only
      rw [hgetD, hdropt, hseg, hw]

/-- C3 (the converter's `while remaining.len() > 0` loop over the
spec-modelled `parse_file`).  For a buffer formed by concatenating
independently-valid segment byte sequences, the loop yields exactly those
segments, in their original order, and terminates having consumed every byte
(the loop only returns successfully once the remainder is empty). -/
theorem stream_decode_chained (segsBytes : List (List Nat)) (decoded : List Segment)
    (fuel : Nat)
    (h : List.Forall₂ (fun b sg => ∃ w, parse_file b = Except.ok ([], sg, w)) segsBytes decoded)
    (hfuel : segsBytes.flatten.length + 1 ≤ fuel) :
    streamLoop fuel segsBytes.flatten = Except.ok decoded := by
  induction h generalizing fuel with
  | nil =>
    cases fuel with
    | zero => rfl
    | succ n => rfl
  | cons hrel hall ih =>
    rename_i b sg bs sgs
    obtain ⟨w, hw⟩ := hrel
    have hbne : b ≠ [] := parse_file_ne_nil b _ hw
    have hblen : 1 ≤ b.length := by
      cases b with
      | nil => exact absurd rfl hbne
      | cons x xs => simp
    rw [List.flatten_cons] at hfuel ⊢
    cases fuel with
    | zero =>
      exfalso
      simp [List.length_append] at hfuel
    | succ n =>
      match b, hbne with
      | x :: b', _ =>
        have hparse := parse_file_append (x :: b') bs.flatten sg w hw
        rw [List.cons_append]
        simp only [streamLoop]
        rw [List.cons_append] at hparse
        rw [hparse]
        have hrec : streamLoop n bs.flatten = Except.ok sgs := by
          apply ih
          rw [List.length_append, List.length_cons] at hfuel
          omega
        dsimp only
        rw [hrec]

/-- Reading field descriptions never produces a longer remainder. -/
theorem readFieldDefs_length (n : Nat) (bs : List Nat) (fs : List FieldDef) (r : List Nat)
    (h : readFieldDefs n bs = some (fs, r)) : r.length ≤ bs.length := by
  obtain ⟨-, hsplit⟩ := readFieldDefs_spec n bs fs r h
  rw [hsplit]
  simp

/-- Decoding data fields never produces a longer remainder. -/
theorem decodeDataFields_length (big : Bool) (fds : List FieldDef) :
    ∀ bs vs r, decodeDataFields big fds bs = Except.ok (vs, r) → r.length ≤ bs.length := by
  induction fds with
  | nil =>
    intro bs vs r h
    simp only [decodeDataFields, Except.ok.injEq, Prod.mk.injEq] at h
    rw [← h.2]
  | cons f fs ih =>
    intro bs vs r h
    simp only [decodeDataFields] at h
    split at h
    · cases hv : decodeValue f.baseType (baseTypeInfo f.baseType).2
          (f.size / (baseTypeInfo f.baseType).2) big (bs.take f.size) with
      | error e => rw [hv] at h; exact absurd h (by simp)
      | ok v =>
        rw [hv] at h
        dsimp only at h
        cases hrec : decodeDataFields big fs (bs.drop f.size) with
        | error e => rw [hrec] at h; exact absurd h (by simp)
        | ok pr =>
          obtain ⟨vs', r'⟩ := pr
          rw [hrec] at h
          simp only [Except.ok.injEq, Prod.mk.injEq] at h
          have := ih (bs.drop f.size) vs' r' hrec
          rw [← h.2]
          calc r'.length ≤ (bs.drop f.size).length := this
          _ ≤ bs.length := by simp
    · exact absurd h (by simp)

/-- Every successfully decoded frame consumes at least one byte. -/
theorem decodeFrame_consumes (tbl : List (Nat × FrameDef)) (bs : List Nat)
    (f : Frame) (tbl2 : List (Nat × FrameDef)) (r : List Nat)
    (h : decodeFrame tbl bs = Except.ok (f, tbl2, r)) : r.length < bs.length := by
  match bs, h with
  | disc :: rest, h =>
    simp only [decodeFrame] at h
    split at h
    · match rest, h with
      | arch :: cnt :: rest2, h =>
        dsimp only at h
        cases hread : readFieldDefs cnt rest2 with
        | none => rw [hread] at h; exact absurd h (by simp)
        | some pr =>
          obtain ⟨fs, r0⟩ := pr
          rw [hread] at h
          simp only [Except.ok.injEq, Prod.mk.injEq] at h
          have := readFieldDefs_length cnt rest2 fs r0 hread
          rw [← h.2.2]
          simp only [List.length_cons]
          omega
    · cases hlook : tblLookup tbl disc with
      | none => rw [hlook] at h; exact absurd h (by simp)
      | some d =>
        rw [hlook] at h
        dsimp only at h
        cases hdec : decodeDataFields d.isBig d.fields rest with
        | error e => rw [hdec] at h; exact absurd h (by simp)
        | ok pr =>
          obtain ⟨vs, r0⟩ := pr
          rw [hdec] at h
          simp only [Except.ok.injEq, Prod.mk.injEq] at h
          have := decodeDataFields_length d.isBig d.fields rest vs r0 hdec
          rw [← h.2.2]
          simp only [List.length_cons]
          omega

/-- `decodeFrames` does not depend on the fuel, as long as the fuel exceeds
the number of remaining bytes. -/
theorem decodeFrames_fuel_aux : ∀ (n : Nat) (bs : List Nat) (tbl : List (Nat × FrameDef))
    (fuel fuel' : Nat), bs.length ≤ n → bs.length < fuel → bs.length < fuel' →
    decodeFrames fuel tbl bs = decodeFrames fuel' tbl bs := by
  intro n
  induction n with
  | zero =>
    intro bs tbl fuel fuel' hn _ _
    have : bs = [] := List.length_eq_zero.1 (Nat.le_zero.1 hn)
    subst this
    cases fuel <;> cases fuel' <;> rfl
  | succ m ih =>
    intro bs tbl fuel fuel' hn h1 h2
    cases bs with
    | nil => cases fuel <;> cases fuel' <;> rfl
    | cons b bs' =>
      match fuel, h1 with
      | f1 + 1, h1 =>
        match fuel', h2 with
        | f2 + 1, h2 =>
          simp only [decodeFrames]
          cases hf : decodeFrame tbl (b :: bs') with
          | error e => rfl
          | ok t =>
            obtain ⟨f, tbl2, r⟩ := t
            have hcons := decodeFrame_consumes tbl (b :: bs') f tbl2 r hf
            dsimp only
            have hc : r.length < bs'.length + 1 := by simpa using hcons
            have hn' : bs'.length + 1 ≤ m + 1 := by simpa using hn
            have h1' : bs'.length + 1 < f1 + 1 := by simpa using h1
            have h2' : bs'.length + 1 < f2 + 1 := by simpa using h2
            rw [ih r tbl2 f1 f2 (by omega) (by omega) (by omega)]

/-- Fuel-irrelevance for `decodeFrames`, usable form. -/
theorem decodeFrames_fuel_eq (tbl : List (Nat × FrameDef)) (bs : List Nat)
    (fuel fuel' : Nat) (h1 : bs.length < fuel) (h2 : bs.length < fuel') :
    decodeFrames fuel tbl bs = decodeFrames fuel' tbl bs :=
  decodeFrames_fuel_aux bs.length bs tbl fuel fuel' (Nat.le_refl _) h1 h2

/-- A decoded frame either pushes its definition onto the table or leaves
the table unchanged. -/
theorem decodeFrame_tbl (tbl : List (Nat × FrameDef)) (bs : List Nat)
    (f : Frame) (tbl2 : List (Nat × FrameDef)) (r : List Nat)
    (h : decodeFrame tbl bs = Except.ok (f, tbl2, r)) :
    (∃ id d, f = Frame.defn id d ∧ tbl2 = (id, d) :: tbl) ∨
    ((∃ id vs, f = Frame.data id vs) ∧ tbl2 = tbl) := by
  match bs, h with
  | disc :: rest, h =>
    simp only [decodeFrame] at h
    split at h
    · match rest, h with
      | arch :: cnt :: rest2, h =>
        dsimp only at h
        cases hread : readFieldDefs cnt rest2 with
        | none => rw [hread] at h; exact absurd h (by simp)
        | some pr =>
          obtain ⟨fs, r0⟩ := pr
          rw [hread] at h
          simp only [Except.ok.injEq, Prod.mk.injEq] at h
          exact Or.inl ⟨disc - 128, FrameDef.mk arch fs, h.1.symm, h.2.1.symm⟩
    · cases hlook : tblLookup tbl disc with
      | none => rw [hlook] at h; exact absurd h (by simp)
      | some d =>
        rw [hlook] at h
        dsimp only at h
        cases hdec : decodeDataFields d.isBig d.fields rest with
        | error e => rw [hdec] at h; exact absurd h (by simp)
        | ok pr =>
          obtain ⟨vs, r0⟩ := pr
          rw [hdec] at h
          simp only [Except.ok.injEq, Prod.mk.injEq] at h
          exact Or.inr ⟨⟨disc, vs, h.1.symm⟩, h.2.1.symm⟩

/-- Along a run of successful decode steps that contains no definition frame
for `id`, the Definition Table never acquires an entry for `id`. -/
theorem steps_tblLookup (id : Nat) : ∀ {tbl : List (Nat × FrameDef)} {bs : List Nat}
    {fs : List Frame} {tbl2 : List (Nat × FrameDef)} {r : List Nat},
    Steps tbl bs fs tbl2 r → tblLookup tbl id = none →
    (∀ d, Frame.defn id d ∉ fs) → tblLookup tbl2 id = none := by
  intro tbl bs fs tbl2 r hs
  induction hs with
  | refl t b => intro h0 _; exact h0
  | @step tbl' bs' f tbl1 r1 fs' tblF rF hd hs' ih =>
    intro h0 hnd
    rcases decodeFrame_tbl tbl' bs' f tbl1 r1 hd with ⟨id2, d2, hf, htbl⟩ | ⟨-, htbl⟩
    · have hne : id2 ≠ id := by
        intro hcontra
        exact hnd d2 (by rw [hf, hcontra]; exact List.mem_cons_self _ _)
      refine ih ?_ (fun d hmem => hnd d (List.mem_cons_of_mem _ hmem))
      rw [htbl]
      simp only [tblLookup, if_neg hne]
      exact h0
    · exact ih (htbl ▸ h0) (fun d hmem => hnd d (List.mem_cons_of_mem _ hmem))

/-- An error reached after a run of successful decode steps is the result of
decoding the whole body, at the same remaining-bytes position. -/
theorem decodeFrames_steps (e : DecodeError) (rpos : List Nat) :
    ∀ {tbl : List (Nat × FrameDef)} {bs : List Nat} {fs : List Frame}
    {tbl2 : List (Nat × FrameDef)} {r : List Nat},
    Steps tbl bs fs tbl2 r →
    decodeFrames (r.length + 1) tbl2 r = Except.error (e, rpos) →
    decodeFrames (bs.length + 1) tbl bs = Except.error (e, rpos) := by
  intro tbl bs fs tbl2 r hs
  induction hs with
  | refl t b => intro he; exact he
  | @step tbl' bs' f tbl1 r1 fs' tblF rF hd hs' ih =>
    intro he
    have hcons := decodeFrame_consumes tbl' bs' f tbl1 r1 hd
    match bs', hcons, hd with
    | b :: bsr, hcons, hd =>
      simp only [List.length_cons]
      simp only [decodeFrames]
      rw [hd]
      dsimp only
      have hfuel : decodeFrames (bsr.length + 1) tbl1 r1 =
          decodeFrames (r1.length + 1) tbl1 r1 := by
        apply decodeFrames_fuel_eq
        · simp only [List.length_cons] at hcons
          omega
        · omega
      rw [hfuel, ih he]

/-- C6 (spec-modelled decoder).  If, inside one segment body, a data frame
for some type identifier is reached before any definition frame for that
identifier has been seen, decoding the body fails with `undefinedFrameType`,
the failure position is exactly the offending frame (no bytes of it are
consumed), and no decoded frame list is produced — no default layout is ever
silently substituted. -/
theorem undefined_data_frame_fails (body : List Nat) (pf : List Frame)
    (tbl2 : List (Nat × FrameDef)) (disc : Nat) (rest : List Nat)
    (hsteps : Steps [] body pf tbl2 (disc :: rest))
    (hdisc : disc < 128)
    (hnd : ∀ d, Frame.defn disc d ∉ pf) :
    decodeFrames (body.length + 1) [] body =
      Except.error (DecodeError.undefinedFrameType, disc :: rest) := by
  have hlook : tblLookup tbl2 disc = none :=
    steps_tblLookup disc hsteps rfl hnd
  have hframe : decodeFrame tbl2 (disc :: rest) =
      Except.error DecodeError.undefinedFrameType := by
    simp only [decodeFrame, if_neg (Nat.not_le.2 hdisc), hlook]
  have herr : decodeFrames ((disc :: rest).length + 1) tbl2 (disc :: rest) =
      Except.error (DecodeError.undefinedFrameType, disc :: rest) := by
    simp only [List.length_cons]
    simp only [decodeFrames]
    rw [hframe]
  exact decodeFrames_steps _ _ hsteps herr

/-- In non-aggregate mode, `main`'s loop writes one output per input,
immediately after decoding that input, containing exactly that input's
decoded segments, and both the accumulator and the buffer are empty after
every iteration. -/
theorem mainLoop_noCollect (loc : OutputLocation) :
    ∀ (files : List (FsPath × List Nat)) (decoded : List (List Segment)),
    List.Forall₂ (fun f segs => streamLoop (f.2.length + 1) f.2 = Except.ok segs) files decoded →
    (∀ f ∈ files, (outName loc f.1).isSome) →
    mainLoop loc false ([], []) files = Except.ok (([], []),
      (files.zip decoded).flatMap (fun fd =>
        [Event.eRead fd.1.1 fd.1.2, Event.eDecode fd.1.1 fd.2,
         Event.eWrite ((outName loc fd.1.1).getD emptyPath) (write_json_data fd.2)])) := by
  intro files decoded h
  induction h with
  | nil => intro _; rfl
  | @cons f segs fs sgs hrel hall ih =>
    intro hnames
    obtain ⟨o, ho⟩ := Option.isSome_iff_exists.1 (hnames f (List.mem_cons_self _ _))
    have hproc : processFile loc false ([], []) f = Except.ok (([], []),
        [Event.eRead f.1 f.2, Event.eDecode f.1 segs,
         Event.eWrite ((outName loc f.1).getD emptyPath) (write_json_data segs)]) := by
      simp only [processFile, List.nil_append]
      rw [hrel]
      dsimp only
      simp only [Bool.false_eq_true, if_false, write_json_file, ho]
      rfl
    simp only [mainLoop]
    rw [hproc]
    dsimp only
    rw [ih (fun g hg => hnames g (List.mem_cons_of_mem _ hg))]
    simp [List.zip_cons_cons, List.flatMap_cons]

/-- In aggregate mode, `main`'s loop only accumulates: no writes happen
inside the loop, the buffer is cleared after every file, and the accumulator
ends as the concatenation of every input's decoded segments, in order. -/
theorem mainLoop_collect (loc : OutputLocation) :
    ∀ (files : List (FsPath × List Nat)) (decoded : List (List Segment)),
    List.Forall₂ (fun f segs => streamLoop (f.2.length + 1) f.2 = Except.ok segs) files decoded →
    ∀ acc : List Segment,
    mainLoop loc true (acc, []) files = Except.ok ((acc ++ decoded.flatten, []),
      (files.zip decoded).flatMap (fun fd =>
        [Event.eRead fd.1.1 fd.1.2, Event.eDecode fd.1.1 fd.2])) := by
  intro files decoded h
  induction h with
  | nil => intro acc; simp [mainLoop]
  | @cons f segs fs sgs hrel hall ih =>
    intro acc
    have hproc : processFile loc true (acc, []) f = Except.ok ((acc ++ segs, []),
        [Event.eRead f.1 f.2, Event.eDecode f.1 segs]) := by
      simp only [processFile, List.nil_append]
      rw [hrel]
      simp
    simp only [mainLoop]
    rw [hproc]
    dsimp only
    rw [ih (acc ++ segs)]
    simp [List.zip_cons_cons, List.flatMap_cons, List.flatten_cons, List.append_assoc]

/-- `main`'s loop splits over list append: it processes a prefix, then the
rest from the resulting state, concatenating the event traces. -/
theorem mainLoop_append (loc : OutputLocation) (collect : Bool) :
    ∀ (pre rest : List (FsPath × List Nat)) (st : List Segment × List Nat),
    mainLoop loc collect st (pre ++ rest) =
      match mainLoop loc collect st pre with
      | Except.error e => Except.error e
      | Except.ok (st2, evs) =>
        match mainLoop loc collect st2 rest with
        | Except.error e => Except.error e
        | Except.ok (st3, evs2) => Except.ok (st3, evs ++ evs2) := by
  intro pre
  induction pre with
  | nil =>
    intro rest st
    simp only [List.nil_append, mainLoop]
    cases mainLoop loc collect st rest with
    | error e => rfl
    | ok t => obtain ⟨st3, evs2⟩ := t; rfl
  | cons p pre' ih =>
    intro rest st
    simp only [List.cons_append, mainLoop]
    cases hp : processFile loc collect st p with
    | error e => rfl
    | ok t =>
      obtain ⟨st2, evs⟩ := t
      dsimp only
      simp only [List.append_eq]
      rw [ih rest st2]
      cases mainLoop loc collect st2 pre' with
      | error e => rfl
      | ok t2 =>
        obtain ⟨st3, evs3⟩ := t2
        dsimp only
        cases mainLoop loc collect st3 rest with
        | error e => rfl
        | ok t3 =>
          obtain ⟨st4, evs4⟩ := t3
          dsimp only
          rw [List.append_assoc]

/-- C1.  Decoded segments from all input files are aggregated into one single
output write exactly when the output path given on the command line is an
explicit non-directory file; otherwise (no output flag, or the output path is
a directory) exactly one output write happens per input file, immediately
after that input file is decoded, containing only that input's segments. -/
theorem output_aggregation_policy (isDir : FsPath → Bool) (output : Option FsPath)
    (files : List (FsPath × List Nat)) (decoded : List (List Segment))
    (hdec : List.Forall₂ (fun f segs => streamLoop (f.2.length + 1) f.2 = Except.ok segs)
      files decoded)
    (hnames : ∀ f ∈ files, (outName (mainLoc isDir output) f.1).isSome) :
    (∀ p, output = some p → isDir p = false →
      mainRun isDir output files = Except.ok (
        ((files.zip decoded).flatMap (fun fd =>
          [Event.eRead fd.1.1 fd.1.2, Event.eDecode fd.1.1 fd.2]))
        ++ [Event.eWrite p (write_json_data decoded.flatten)])) ∧
    ((output = none ∨ ∃ p, output = some p ∧ isDir p = true) →
      mainRun isDir output files = Except.ok ((files.zip decoded).flatMap (fun fd =>
        [Event.eRead fd.1.1 fd.1.2, Event.eDecode fd.1.1 fd.2,
         Event.eWrite ((outName (mainLoc isDir output) fd.1.1).getD emptyPath)
           (write_json_data fd.2)]))) := by
  constructor
  · intro p hp hdir
    subst hp
    have hloc : mainLoc isDir (some p) = OutputLocation.localFile p := by
      simp [mainLoc, OutputLocation.new, hdir]
    simp only [mainRun, hloc]
    have hcoll : collectAll (OutputLocation.localFile p) = true := rfl
    rw [hcoll, mainLoop_collect (OutputLocation.localFile p) files decoded hdec []]
    dsimp only
    simp [write_json_file, outName]
  · intro hcase
    have hcoll : collectAll (mainLoc isDir output) = false := by
      rcases hcase with h | ⟨p, hp, hdir⟩
      · subst h; rfl
      · subst hp
        simp [mainLoc, OutputLocation.new, hdir, collectAll]
    simp only [mainRun]
    rw [hcoll, mainLoop_noCollect (mainLoc isDir output) files decoded hdec hnames]
    dsimp only
    simp

/-- Witness for C1 at a concrete aggregate-mode run. -/
theorem output_aggregation_policy_witness :
    mainRun (fun _ => false) (some outJson) [(fitA, bytesEmptySeg)] =
      Except.ok [Event.eRead fitA bytesEmptySeg, Event.eDecode fitA [segEmpty],
        Event.eWrite outJson (write_json_data [segEmpty])] := by
  have h := output_aggregation_policy (fun _ => false) (some outJson)
    [(fitA, bytesEmptySeg)] [[segEmpty]]
    (List.Forall₂.cons rfl List.Forall₂.nil) (by decide)
  simpa using h.1 outJson rfl rfl

/-- C2.  Output-path resolution of `write_json_file`: with no output location
the input path with its extension replaced by `json`; with a directory
location, the directory joined with the input's file name, extension replaced
by `json`; with an explicit file location, exactly that path, independent of
the input path. -/
theorem output_path_resolution (p : FsPath) (fn : FName) (dest : FsPath)
    (data : List Segment) (h : p.fname = some fn) :
    write_json_file OutputLocation.inplace p data =
      some (p.withExtension "json", write_json_data data) ∧
    write_json_file (OutputLocation.localDirectory dest) p data =
      some ((dest.joinFile fn).withExtension "json", write_json_data data) ∧
    write_json_file (OutputLocation.localFile dest) p data =
      some (dest, write_json_data data) := by
  refine ⟨rfl, ?_, rfl⟩
  simp [write_json_file, outName, h]

/-- Witness for C2 at a concrete input path. -/
theorem output_path_resolution_witness :
    write_json_file OutputLocation.inplace fitA [] =
      some (fitA.withExtension "json", write_json_data []) ∧
    write_json_file (OutputLocation.localDirectory outJson) fitA [] =
      some ((outJson.joinFile (FName.mk "a" (some "fit"))).withExtension "json",
        write_json_data []) ∧
    write_json_file (OutputLocation.localFile outJson) fitA [] =
      some (outJson, write_json_data []) :=
  output_path_resolution fitA (FName.mk "a" (some "fit")) outJson [] rfl

/-- Counterexample to C4 as stated: with two input files whose first fails to
decode, the whole run dies with the `unwrap` panic on the first file's parse
error — no events at all are produced, so the second (perfectly valid) input
file is never processed and never written, instead of being "continued
with". -/
theorem abort_on_error_counterexample :
    mainRun (fun _ => false) none [(fitA, [0]), (fitB, bytesEmptySeg)] =
      Except.error (RunError.parseError fitA DecodeError.invalidHeader) := by
  rfl

/-- C4 (amended).  When decoding one input file fails with a fatal error, the
converter panics (`unwrap`) and the entire run aborts with that file's parse
error: the remaining input files in the batch are not processed and the run
produces no result, in either aggregate or per-input mode. -/
theorem abort_on_error (isDir : FsPath → Bool) (output : Option FsPath)
    (pre : List (FsPath × List Nat)) (p : FsPath) (bs : List Nat)
    (post : List (FsPath × List Nat)) (decodedPre : List (List Segment))
    (e : DecodeError) (rpos : List Nat)
    (hdec : List.Forall₂ (fun f segs => streamLoop (f.2.length + 1) f.2 = Except.ok segs)
      pre decodedPre)
    (hnames : ∀ f ∈ pre, (outName (mainLoc isDir output) f.1).isSome)
    (herr : streamLoop (bs.length + 1) bs = Except.error (e, rpos)) :
    mainRun isDir output (pre ++ (p, bs) :: post) =
      Except.error (RunError.parseError p e) := by
  have hstep : ∀ acc : List Segment,
      processFile (mainLoc isDir output) (collectAll (mainLoc isDir output))
        (acc, []) (p, bs) = Except.error (RunError.parseError p e) := by
    intro acc
    simp only [processFile, List.nil_append]
    rw [herr]
  cases hcoll : collectAll (mainLoc isDir output) with
  | true =>
    simp only [mainRun]
    rw [hcoll, mainLoop_append,
      mainLoop_collect (mainLoc isDir output) pre decodedPre hdec []]
    dsimp only
    simp only [mainLoop]
    rw [← hcoll, hstep ([] ++ decodedPre.flatten)]
  | false =>
    simp only [mainRun]
    rw [hcoll, mainLoop_append,
      mainLoop_noCollect (mainLoc isDir output) pre decodedPre hdec hnames]
    dsimp only
    simp only [mainLoop]
    rw [← hcoll, hstep []]

/-- Witness for the amended C4 at a concrete aggregate-mode run with one
valid file before the failing one. -/
theorem abort_on_error_witness :
    mainRun (fun _ => false) (some outJson) [(fitB, bytesEmptySeg), (fitA, [0])] =
      Except.error (RunError.parseError fitA DecodeError.invalidHeader) :=
  abort_on_error (fun _ => false) (some outJson) [(fitB, bytesEmptySeg)] fitA [0] []
    [[segEmpty]] DecodeError.invalidHeader [0]
    (List.Forall₂.cons rfl List.Forall₂.nil) (by decide) rfl

/-- Shape of one successful loop iteration started with an empty buffer: the
next state's buffer is empty again, and the events are the read of the whole
file followed by the decode of exactly those contents, optionally followed by
one write. -/
theorem processFile_shape (loc : OutputLocation) (collect : Bool)
    (st : List Segment × List Nat) (f : FsPath × List Nat)
    (stm : List Segment × List Nat) (evs1 : List Event)
    (hst : st.2 = []) (h : processFile loc collect st f = Except.ok (stm, evs1)) :
    stm.2 = [] ∧ ∃ segs, streamLoop (f.2.length + 1) f.2 = Except.ok segs ∧
      (evs1 = [Event.eRead f.1 f.2, Event.eDecode f.1 segs] ∨
       ∃ o j, evs1 = [Event.eRead f.1 f.2, Event.eDecode f.1 segs, Event.eWrite o j]) := by
  obtain ⟨acc, buf⟩ := st
  dsimp only at hst
  subst hst
  simp only [processFile, List.nil_append] at h
  cases hs : streamLoop (f.2.length + 1) f.2 with
  | error e => rw [hs] at h; exact absurd h (by simp)
  | ok segs =>
    rw [hs] at h
    dsimp only at h
    cases collect with
    | true =>
      simp only [if_pos, Except.ok.injEq, Prod.mk.injEq] at h
      obtain ⟨hstm, hevs⟩ := h
      exact ⟨by rw [← hstm], segs, rfl, Or.inl hevs.symm⟩
    | false =>
      simp only [Bool.false_eq_true, if_false] at h
      cases hw : write_json_file loc f.1 (acc ++ segs) with
      | none => rw [hw] at h; exact absurd h (by simp)
      | some oj =>
        obtain ⟨o, j⟩ := oj
        rw [hw] at h
        simp only [Except.ok.injEq, Prod.mk.injEq] at h
        obtain ⟨hstm, hevs⟩ := h
        exact ⟨by rw [← hstm], segs, rfl, Or.inr ⟨o, j, hevs.symm⟩⟩

/-- Every successful loop run started with an empty buffer produces a trace
in which each decode event is immediately preceded by the read of the entire
file contents it decodes. -/
theorem mainLoop_rpd (loc : OutputLocation) (collect : Bool) :
    ∀ (files : List (FsPath × List Nat)) (st stf : List Segment × List Nat)
    (evs : List Event), st.2 = [] →
    mainLoop loc collect st files = Except.ok (stf, evs) →
    ∀ tail, readsPrecedeDecodes tail = true →
    readsPrecedeDecodes (evs ++ tail) = true := by
  intro files
  induction files with
  | nil =>
    intro st stf evs hst h tail htail
    simp only [mainLoop, Except.ok.injEq, Prod.mk.injEq] at h
    rw [← h.2, List.nil_append]
    exact htail
  | cons f fs ih =>
    intro st stf evs hst h tail htail
    simp only [mainLoop] at h
    cases hp : processFile loc collect st f with
    | error e => rw [hp] at h; exact absurd h (by simp)
    | ok t =>
      obtain ⟨stm, evs1⟩ := t
      rw [hp] at h
      dsimp only at h
      cases hrest : mainLoop loc collect stm fs with
      | error e => rw [hrest] at h; exact absurd h (by simp)
      | ok t2 =>
        obtain ⟨stf2, evs2⟩ := t2
        rw [hrest] at h
        simp only [Except.ok.injEq, Prod.mk.injEq] at h
        obtain ⟨hs1, hs2⟩ := h
        obtain ⟨hbuf, segs, hsegs, hshape⟩ := processFile_shape loc collect st f stm evs1 hst hp
        have hrec : readsPrecedeDecodes (evs2 ++ tail) = true :=
          ih stm stf2 evs2 hbuf hrest tail htail
        rw [← hs2]
        rcases hshape with hevs | ⟨o, j, hevs⟩
        · subst hevs
          simp only [List.cons_append, List.nil_append, readsPrecedeDecodes, hsegs]
          simp [hrec]
        · subst hevs
          simp only [List.cons_append, List.nil_append, readsPrecedeDecodes, hsegs]
          simp [hrec]

/-- C7.  In every successful run, each input file is read in full into the
buffer and only then decoded: every decode event in the trace is immediately
preceded by the read of the complete contents of that same file, and the
decoded segments are a pure function of those complete contents — no
decoding interleaves with reading. -/
theorem read_whole_file_before_decode (isDir : FsPath → Bool) (output : Option FsPath)
    (files : List (FsPath × List Nat)) (evs : List Event)
    (h : mainRun isDir output files = Except.ok evs) :
    readsPrecedeDecodes evs = true := by
  simp only [mainRun] at h
  cases hl : mainLoop (mainLoc isDir output) (collectAll (mainLoc isDir output))
      ([], []) files with
  | error e => rw [hl] at h; exact absurd h (by simp)
  | ok t =>
    obtain ⟨st, evs0⟩ := t
    rw [hl] at h
    dsimp only at h
    by_cases hc : collectAll (mainLoc isDir output) = true
    · rw [if_pos hc] at h
      cases hw : write_json_file (mainLoc isDir output) emptyPath st.1 with
      | none => rw [hw] at h; exact absurd h (by simp)
      | some oj =>
        obtain ⟨o, j⟩ := oj
        rw [hw] at h
        simp only [Except.ok.injEq] at h
        rw [← h]
        exact mainLoop_rpd _ _ files ([], []) st evs0 rfl hl [Event.eWrite o j] rfl
    · rw [if_neg hc] at h
      simp only [Except.ok.injEq] at h
      rw [← h]
      have := mainLoop_rpd _ _ files ([], []) st evs0 rfl hl [] rfl
      simpa using this

/-- Witness for C7 at a concrete successful run. -/
theorem read_whole_file_before_decode_witness :
    readsPrecedeDecodes [Event.eRead fitA bytesEmptySeg, Event.eDecode fitA [segEmpty],
      Event.eWrite (fitA.withExtension "json") (write_json_data [segEmpty])] = true :=
  read_whole_file_before_decode (fun _ => false) none [(fitA, bytesEmptySeg)] _ rfl

/-- C8.  The serialized output is the bare JSON value of a single decoded
value exactly when the list being written has length one, and a JSON array
otherwise; the choice depends only on the number of decoded values, not on
the number of input files: one input file with two chained segments yields an
array even in per-input mode, while explicit-file output of one input with
one segment yields a bare object. -/
theorem json_object_vs_array (data : List Segment) :
    ((∃ s, write_json_data data = Json.single s) ↔ data.length = 1) ∧
    mainRun (fun _ => false) none [(fitA, bytesEmptySeg ++ bytesEmptySeg)] =
      Except.ok [Event.eRead fitA (bytesEmptySeg ++ bytesEmptySeg),
        Event.eDecode fitA [segEmpty, segEmpty],
        Event.eWrite (fitA.withExtension "json") (Json.array [segEmpty, segEmpty])] ∧
    mainRun (fun _ => false) (some outJson) [(fitA, bytesEmptySeg)] =
      Except.ok [Event.eRead fitA bytesEmptySeg, Event.eDecode fitA [segEmpty],
        Event.eWrite outJson (Json.single segEmpty)] := by
  refine ⟨⟨?_, ?_⟩, by rfl, by rfl⟩
  · intro ⟨s, hs⟩
    match data, hs with
    | [x], _ => rfl
  · intro hlen
    match data, hlen with
    | [x], _ => exact ⟨x, rfl⟩

/-- C9.  `OutputLocation::new` classifies any output path for which the
file-system directory test fails — an existing non-directory file or a path
that does not exist at all — as an explicit single output file, which turns
aggregate mode on; only a path that currently is a directory selects
per-input directory output, with aggregate mode off. -/
theorem output_classification (isDir : FsPath → Bool) (loc : FsPath) :
    (isDir loc = false →
      OutputLocation.new isDir loc = OutputLocation.localFile loc ∧
      collectAll (OutputLocation.new isDir loc) = true) ∧
    (isDir loc = true →
      OutputLocation.new isDir loc = OutputLocation.localDirectory loc ∧
      collectAll (OutputLocation.new isDir loc) = false) := by
  constructor
  · intro h
    rw [OutputLocation.new, if_neg (by simp [h])]
    exact ⟨rfl, rfl⟩
  · intro h
    rw [OutputLocation.new, if_pos h]
    exact ⟨rfl, rfl⟩

/-- Witness for C9 with a file system in which nothing is a directory. -/
theorem output_classification_witness :
    OutputLocation.new (fun _ => false) outJson = OutputLocation.localFile outJson ∧
    collectAll (OutputLocation.new (fun _ => false) outJson) = true :=
  (output_classification (fun _ => false) outJson).1 rfl

/-- The writes contained in a non-aggregate per-file trace. -/
theorem writesOf_flatMap (loc : OutputLocation) :
    ∀ l : List ((FsPath × List Nat) × List Segment),
    writesOf (l.flatMap (fun fd =>
      [Event.eRead fd.1.1 fd.1.2, Event.eDecode fd.1.1 fd.2,
       Event.eWrite ((outName loc fd.1.1).getD emptyPath) (write_json_data fd.2)])) =
    l.map (fun fd => ((outName loc fd.1.1).getD emptyPath, write_json_data fd.2)) := by
  intro l
  induction l with
  | nil => rfl
  | cons a l ih =>
    simp only [writesOf] at ih ⊢
    simp only [List.flatMap_cons, List.filterMap_append, ih, List.map_cons]
    rfl

/-- C10.  In non-aggregate mode the `fit_data` accumulator and the read
buffer are both empty again after every input file is processed (for any
prefix of the batch), so each per-input output write contains exactly the
segments decoded from that one input file: no bytes and no records leak from
one input into another input's output. -/
theorem per_input_isolation (loc : OutputLocation)
    (pre : List (FsPath × List Nat)) (decodedPre : List (List Segment))
    (hdec : List.Forall₂ (fun f segs => streamLoop (f.2.length + 1) f.2 = Except.ok segs)
      pre decodedPre)
    (hnames : ∀ f ∈ pre, (outName loc f.1).isSome) :
    ∃ evs, mainLoop loc false ([], []) pre = Except.ok (([], []), evs) ∧
      writesOf evs = (pre.zip decodedPre).map (fun fd =>
        ((outName loc fd.1.1).getD emptyPath, write_json_data fd.2)) :=
  ⟨_, mainLoop_noCollect loc pre decodedPre hdec hnames,
    writesOf_flatMap loc (pre.zip decodedPre)⟩

/-- Witness for C10 at a concrete one-file batch in in-place mode. -/
theorem per_input_isolation_witness :
    ∃ evs, mainLoop OutputLocation.inplace false ([], []) [(fitA, bytesEmptySeg)] =
      Except.ok (([], []), evs) ∧
      writesOf evs = [((outName OutputLocation.inplace fitA).getD emptyPath,
        write_json_data [segEmpty])] :=
  per_input_isolation OutputLocation.inplace [(fitA, bytesEmptySeg)] [[segEmpty]]
    (List.Forall₂.cons rfl List.Forall₂.nil) (by decide)

/-- Witness for C3 at a concrete two-segment chained buffer. -/
theorem stream_decode_chained_witness :
    streamLoop 13 ([bytesEmptySeg, bytesEmptySeg] : List (List Nat)).flatten =
      Except.ok [segEmpty, segEmpty] :=
  stream_decode_chained [bytesEmptySeg, bytesEmptySeg] [segEmpty, segEmpty] 13
    (List.Forall₂.cons ⟨false, rfl⟩ (List.Forall₂.cons ⟨false, rfl⟩ List.Forall₂.nil))
    (by decide)

/-- Witness for C5 at a concrete segment with one definition frame and one
data frame. -/
theorem decode_encode_roundtrip_witness : encodeSegment segRich = some bytesRichSeg :=
  decode_encode_roundtrip bytesRichSeg segRich rfl (by decide)

/-- Witness for C6: a body holding one definition frame for type 0 followed
by a data frame for the never-defined type 3. -/
theorem undefined_data_frame_fails_witness :
    decodeFrames 5 [] [128, 0, 0, 3] =
      Except.error (DecodeError.undefinedFrameType, [3]) := by
  have hstep : Steps [] [128, 0, 0, 3] [Frame.defn 0 (FrameDef.mk 0 [])]
      [(0, FrameDef.mk 0 [])] [3] :=
    Steps.step rfl (Steps.refl _ _)
  exact undefined_data_frame_fails [128, 0, 0, 3] [Frame.defn 0 (FrameDef.mk 0 [])]
    [(0, FrameDef.mk 0 [])] 3 [] hstep (by decide)
    (by intro d hmem; simp at hmem)
